import Mathlib

/-!
Verification of the NURBS core of the `viviani4d` repository.

The embedding models `src/bspline_basis.py` and `src/nurbs_curve.py`.
Real numbers are modelled by `ℚ` (the source performs exact comparisons
`denom != 0`, `denominator == 0`, which are meaningful over an exact field).
Python list indexing that can raise `IndexError` is modelled by `Option` /
`Except`; in-bounds indexing uses `List.getD`.
-/

namespace Viviani4D

/-- Shallow embedding of `BSplineBasis.basis_function(i, p, u, knots)`
(`src/bspline_basis.py`, lines 38–59).  Python list indexing is fallible,
so the result is `Option ℚ`: `none` models an `IndexError`.

* `p = 0`: `np.where` on `knots[i] <= u < knots[i+1]`, with the upper bound
  inclusive on the last interval (`i == len(knots) - 2`).
* `p > 0`: each of the two Cox–de Boor terms is added only when its
  denominator is non-zero; when a denominator is zero that product is
  skipped and the corresponding recursive call is not evaluated. -/
def basis_function : ℕ → ℕ → ℚ → List ℚ → Option ℚ
  | i, 0, u, knots => do
      let ki ← knots[i]?
      let ki1 ← knots[i+1]?
      -- `i == len(knots) - 2` in Python; `i` is a natural number so this is
      -- equivalent to `i + 2 == len(knots)`.
      if i + 2 = knots.length then
        pure (if ki ≤ u ∧ u ≤ ki1 then 1 else 0)
      else
        pure (if ki ≤ u ∧ u < ki1 then 1 else 0)
  | i, q+1, u, knots => do
      -- here the Python degree `p` is `q+1`
      let kip ← knots[i+q+1]?      -- knots[i+p]
      let ki ← knots[i]?           -- knots[i]
      let kip1 ← knots[i+q+2]?     -- knots[i+p+1]
      let ki1 ← knots[i+1]?        -- knots[i+1]
      let t1 ← if kip - ki ≠ 0 then do
          let n ← basis_function i q u knots
          pure ((u - ki) / (kip - ki) * n)
        else pure 0
      let t2 ← if kip1 - ki1 ≠ 0 then do
          let n ← basis_function (i+1) q u knots
          pure ((kip1 - u) / (kip1 - ki1) * n)
        else pure 0
      pure (t1 + t2)

/-- Total model of `basis_function`: the same Cox–de Boor recursion written
with `List.getD` (out-of-range knots read as `0`).  On in-bounds indices it
agrees with `basis_function` (`basis_function_eq_Nf`). -/
def Nf (knots : List ℚ) (u : ℚ) : ℕ → ℕ → ℚ
  | i, 0 =>
      if i + 2 = knots.length then
        (if knots.getD i 0 ≤ u ∧ u ≤ knots.getD (i+1) 0 then 1 else 0)
      else
        (if knots.getD i 0 ≤ u ∧ u < knots.getD (i+1) 0 then 1 else 0)
  | i, q+1 =>
      (if knots.getD (i+q+1) 0 - knots.getD i 0 ≠ 0 then
        (u - knots.getD i 0) / (knots.getD (i+q+1) 0 - knots.getD i 0) * Nf knots u i q
      else 0)
    + (if knots.getD (i+q+2) 0 - knots.getD (i+1) 0 ≠ 0 then
        (knots.getD (i+q+2) 0 - u) / (knots.getD (i+q+2) 0 - knots.getD (i+1) 0) * Nf knots u (i+1) q
      else 0)

/-- The accumulation loop of `basis_functions_all`: evaluate
`basis_function i p u knots` for each index `i` of the given list, in order,
collecting the values (first failure aborts, as a raised exception would). -/
def basisValsLoop (p : ℕ) (u : ℚ) (knots : List ℚ) : List ℕ → Option (List ℚ)
  | [] => some []
  | i :: is => do
      let v ← basis_function i p u knots
      let rest ← basisValsLoop p u knots is
      pure (v :: rest)

/-- Shallow embedding of `BSplineBasis.basis_functions_all(p, u, knots)`
(`src/bspline_basis.py`, lines 62–87): evaluates basis functions
`i = 0 .. n-1` with `n = len(knots) - p - 1` and returns them in order. -/
def basis_functions_all (p : ℕ) (u : ℚ) (knots : List ℚ) : Option (List ℚ) :=
  basisValsLoop p u knots (List.range (knots.length - p - 1))

/-- The error conditions of `nurbs_curve.py`, named as in the specification:
`DimensionMismatch` and `SingularEvaluation` are the two `ValueError`s the
source raises; `IndexError` models out-of-range list/array indexing. -/
inductive NURBSError where
  | DimensionMismatch
  | SingularEvaluation
  | IndexError
deriving DecidableEq

/-- The state stored by `NURBSCurve.__init__` (`src/nurbs_curve.py`):
control points (shape `(n+1, dim)`, modelled as a list of coordinate
lists), weights, knot vector and degree. -/
structure NURBSCurve where
  control_points : List (List ℚ)
  weights : List ℚ
  knots : List ℚ
  degree : ℕ
deriving DecidableEq

/-- Shallow embedding of `NURBSCurve.__init__` (`src/nurbs_curve.py`,
lines 24–48): stores the four fields as provided, failing with
`DimensionMismatch` when the number of control points differs from the
number of weights.  No other validation is performed. -/
def NURBSCurve.construct (control_points : List (List ℚ)) (weights knots : List ℚ)
    (degree : ℕ) : Except NURBSError NURBSCurve :=
  if control_points.length ≠ weights.length then
    Except.error NURBSError.DimensionMismatch
  else
    Except.ok ⟨control_points, weights, knots, degree⟩

/-- Shallow embedding of the body of the per-parameter loop of
`NURBSCurve.evaluate` (`src/nurbs_curve.py`, lines 70–91) at a single
scalar parameter `u`:

1. `basis_vals = BSplineBasis.basis_functions_all(p, u_val, self.knots)`;
2. `numerator = np.zeros(self.control_points.shape[1])` — reading
   `shape[1]` of an empty point array raises `IndexError`;
3. the loop `for i, (point, weight) in enumerate(zip(control_points,
   weights))` visits indices `i` below the minimum of the two lengths and
   accumulates `numerator += basis_val * weight * point` (element-wise on
   coordinates) and `denominator += basis_val * weight`, where
   `basis_val = basis_vals[i] if i < len(basis_vals) else 0.0`.
   The two independent accumulators are rendered as two folds over the
   same index range;
4. a zero denominator raises (`SingularEvaluation`), otherwise the result
   is `numerator / denominator` element-wise. -/
def NURBSCurve.evaluateScalar (c : NURBSCurve) (u : ℚ) : Except NURBSError (List ℚ) :=
  match basis_functions_all c.degree u c.knots with
  | none => Except.error NURBSError.IndexError
  | some basis_vals =>
    match c.control_points with
    | [] => Except.error NURBSError.IndexError
    | pt0 :: _ =>
      let dim := pt0.length
      let nPairs := min c.control_points.length c.weights.length
      let numerator : List ℚ :=
        (List.range nPairs).foldl
          (fun acc i =>
            List.zipWith (fun a b => a + b) acc
              ((c.control_points.getD i []).map
                (fun x => basis_vals.getD i 0 * c.weights.getD i 0 * x)))
          (List.replicate dim 0)
      let denominator : ℚ :=
        (List.range nPairs).foldl
          (fun acc i => acc + basis_vals.getD i 0 * c.weights.getD i 0) 0
      if denominator = 0 then Except.error NURBSError.SingularEvaluation
      else Except.ok (numerator.map (fun x => x / denominator))

/-- The batched branch of `NURBSCurve.evaluate` (`src/nurbs_curve.py`,
lines 64–95): evaluate each parameter in order, collecting one point per
parameter; the first raised error aborts the whole evaluation, as the
exception would in Python. -/
def NURBSCurve.evaluateBatch (c : NURBSCurve) : List ℚ → Except NURBSError (List (List ℚ))
  | [] => Except.ok []
  | u :: us =>
    match c.evaluateScalar u with
    | Except.error e => Except.error e
    | Except.ok pt =>
      match c.evaluateBatch us with
      | Except.error e => Except.error e
      | Except.ok rest => Except.ok (pt :: rest)

/-- Shallow embedding of `NURBSCurve.evaluate_grid` (`src/nurbs_curve.py`,
lines 97–111): delegates to the batched evaluation. -/
def NURBSCurve.evaluate_grid (c : NURBSCurve) (u_values : List ℚ) :
    Except NURBSError (List (List ℚ)) :=
  c.evaluateBatch u_values

/-- The degree-1 example curve of the specification: control points
`[[0,0],[1,1],[2,0]]`, weights `[1,1,1]`, knots `[0,0,1,2,2]`. -/
def exampleCurve : NURBSCurve :=
  ⟨[[0,0],[1,1],[2,0]], [1,1,1], [0,0,1,2,2], 1⟩

/-- A curve whose knot vector is longer than
`len(control_points) + degree + 1`, so that more basis functions exist
than control points. -/
def longCurve : NURBSCurve :=
  ⟨[[0], [1]], [1, 1], [0, 0, 1, 2, 3, 4], 1⟩

/-! Basic lemmas about the basis evaluator. -/

theorem sorted_getD_mono {knots : List ℚ} (hs : List.Sorted (· ≤ ·) knots) {i j : ℕ}
    (hij : i ≤ j) (hj : j < knots.length) : knots.getD i 0 ≤ knots.getD j 0 := by
  rcases Nat.eq_or_lt_of_le hij with rfl | hlt
  · exact le_refl _
  · rw [List.getD_eq_getElem _ _ (lt_of_le_of_lt hij hj), List.getD_eq_getElem _ _ hj]
    have := List.Sorted.rel_get_of_lt hs (a := ⟨i, lt_of_le_of_lt hij hj⟩)
      (b := ⟨j, hj⟩) hlt
    simpa using this

/-- On in-bounds indices (`i ≤ len(knots) - p - 2`) the fallible evaluator
never raises and agrees with the total model `Nf`. -/
theorem basis_function_eq_Nf : ∀ (p i : ℕ) (u : ℚ) (knots : List ℚ),
    i + p + 2 ≤ knots.length →
    basis_function i p u knots = some (Nf knots u i p) := by
  intro p
  induction p with
  | zero =>
    intro i u knots h
    have h1 : i < knots.length := by omega
    have h2 : i + 1 < knots.length := by omega
    simp only [basis_function, Nf, List.getElem?_eq_getElem h1,
      List.getElem?_eq_getElem h2, Option.some_bind,
      List.getD_eq_getElem _ _ h1, List.getD_eq_getElem _ _ h2]
    split <;> rfl
  | succ q ih =>
    intro i u knots h
    have hb1 : i + q + 1 < knots.length := by omega
    have hb0 : i < knots.length := by omega
    have hb2 : i + q + 2 < knots.length := by omega
    have hb3 : i + 1 < knots.length := by omega
    have r1 : basis_function i q u knots = some (Nf knots u i q) :=
      ih i u knots (by omega)
    have r2 : basis_function (i+1) q u knots = some (Nf knots u (i+1) q) :=
      ih (i+1) u knots (by omega)
    simp only [basis_function, Nf, List.getElem?_eq_getElem hb1,
      List.getElem?_eq_getElem hb0, List.getElem?_eq_getElem hb2,
      List.getElem?_eq_getElem hb3, Option.bind_eq_bind, Option.pure_def,
      Option.some_bind, r1, r2,
      List.getD_eq_getElem _ _ hb1, List.getD_eq_getElem _ _ hb0,
      List.getD_eq_getElem _ _ hb2, List.getD_eq_getElem _ _ hb3]
    split <;> split <;> simp_all

theorem basisValsLoop_eq_map (p : ℕ) (u : ℚ) (knots : List ℚ) :
    ∀ l : List ℕ, (∀ i ∈ l, i + p + 2 ≤ knots.length) →
      basisValsLoop p u knots l = some (l.map fun i => Nf knots u i p) := by
  intro l
  induction l with
  | nil => intro _; rfl
  | cons a as ihl =>
    intro hmem
    have ha : a + p + 2 ≤ knots.length := hmem a (by simp)
    have hrest := ihl (fun i hi => hmem i (by simp [hi]))
    simp [basisValsLoop, basis_function_eq_Nf p a u knots ha, hrest]

/-- `basis_functions_all` never raises: every index it visits is in
bounds, so the result is the list of the `len(knots) - p - 1` values of
the total model. -/
theorem basis_functions_all_eq (p : ℕ) (u : ℚ) (knots : List ℚ) :
    basis_functions_all p u knots
      = some ((List.range (knots.length - p - 1)).map fun i => Nf knots u i p) := by
  apply basisValsLoop_eq_map
  intro i hi
  have := List.mem_range.mp hi
  omega

/-! Support lemmas: where a basis function can be non-zero. -/

/-- A non-zero basis value forces `knots[i] ≤ u` (left end of the support). -/
theorem Nf_supp_left {knots : List ℚ} (hs : List.Sorted (· ≤ ·) knots) (u : ℚ) :
    ∀ (q i : ℕ), i + q + 2 ≤ knots.length → Nf knots u i q ≠ 0 →
      knots.getD i 0 ≤ u := by
  intro q
  induction q with
  | zero =>
    intro i _ hne
    simp only [Nf] at hne
    split at hne <;> split at hne <;> simp_all
  | succ q ih =>
    intro i hb hne
    simp only [Nf] at hne
    by_cases hT1 : (if knots.getD (i+q+1) 0 - knots.getD i 0 ≠ 0 then
        (u - knots.getD i 0) / (knots.getD (i+q+1) 0 - knots.getD i 0) * Nf knots u i q
      else 0) = 0
    · rw [hT1, zero_add] at hne
      have hN : Nf knots u (i+1) q ≠ 0 := by
        intro h0; apply hne; split <;> simp [h0]
      have hu := ih (i+1) (by omega) hN
      exact le_trans (sorted_getD_mono hs (by omega) (by omega)) hu
    · have hN : Nf knots u i q ≠ 0 := by
        intro h0; apply hT1; split <;> simp [h0]
      exact ih i (by omega) hN

/-- A non-zero basis value forces `u ≤ knots[i+q+1]` (right end of the
support). -/
theorem Nf_supp_right {knots : List ℚ} (hs : List.Sorted (· ≤ ·) knots) (u : ℚ) :
    ∀ (q i : ℕ), i + q + 2 ≤ knots.length → Nf knots u i q ≠ 0 →
      u ≤ knots.getD (i+q+1) 0 := by
  intro q
  induction q with
  | zero =>
    intro i _ hne
    simp only [Nf] at hne
    split at hne
    · split at hne
      · next h => exact h.2
      · exact absurd rfl hne
    · split at hne
      · next h => exact le_of_lt h.2
      · exact absurd rfl hne
  | succ q ih =>
    intro i hb hne
    simp only [Nf] at hne
    by_cases hT1 : (if knots.getD (i+q+1) 0 - knots.getD i 0 ≠ 0 then
        (u - knots.getD i 0) / (knots.getD (i+q+1) 0 - knots.getD i 0) * Nf knots u i q
      else 0) = 0
    · rw [hT1, zero_add] at hne
      have hN : Nf knots u (i+1) q ≠ 0 := by
        intro h0; apply hne; split <;> simp [h0]
      have hu := ih (i+1) (by omega) hN
      have e : i + 1 + q + 1 = i + q + 2 := by omega
      rwa [e] at hu
    · have hN : Nf knots u i q ≠ 0 := by
        intro h0; apply hT1; split <;> simp [h0]
      have hu := ih i (by omega) hN
      exact le_trans hu (sorted_getD_mono hs (by omega) (by omega))

/-- A basis value can be non-zero at the right end of its support only at
the very last knot: `Nf i q u ≠ 0` and `u = knots[i+q+1]` force
`i + q + 1` to be the last knot index. -/
theorem Nf_at_right_end {knots : List ℚ} (hs : List.Sorted (· ≤ ·) knots) (u : ℚ) :
    ∀ (q i : ℕ), i + q + 2 ≤ knots.length → Nf knots u i q ≠ 0 →
      u = knots.getD (i+q+1) 0 → i + q + 2 = knots.length := by
  intro q
  induction q with
  | zero =>
    intro i _ hne hu
    simp only [Nf] at hne
    split at hne
    · next h => omega
    · split at hne
      · next h => exact absurd h.2 (not_lt.mpr (le_of_eq hu.symm))
      · exact absurd rfl hne
  | succ q ih =>
    intro i hb hne hu
    rw [show i + (q+1) + 1 = i + q + 2 from by omega] at hu
    simp only [Nf] at hne
    have hnum : knots.getD (i+q+2) 0 - u = 0 := by rw [hu]; exact sub_self _
    have hT2 : (if knots.getD (i+q+2) 0 - knots.getD (i+1) 0 ≠ 0 then
        (knots.getD (i+q+2) 0 - u) / (knots.getD (i+q+2) 0 - knots.getD (i+1) 0) *
          Nf knots u (i+1) q
      else 0) = 0 := by
      split
      · rw [hnum, zero_div, zero_mul]
      · rfl
    rw [hT2, add_zero] at hne
    have hN : Nf knots u i q ≠ 0 := by
      intro h0; apply hne; split <;> simp [h0]
    have h1 : u ≤ knots.getD (i+q+1) 0 := Nf_supp_right hs u q i (by omega) hN
    have h2 : knots.getD (i+q+1) 0 ≤ knots.getD (i+q+2) 0 :=
      sorted_getD_mono hs (by omega) (by omega)
    have hu' : u = knots.getD (i+q+1) 0 := by
      rw [← hu] at h2
      exact le_antisymm h1 h2
    have := ih i (by omega) hN hu'
    omega

/-! Partition of unity. -/

/-- On the open-right domain of degree `s+1`, the first degree-`s` basis
function vanishes. -/
theorem Nf_first_vanishes {knots : List ℚ} (hs : List.Sorted (· ≤ ·) knots) (u : ℚ)
    (s : ℕ) (hb : s + 3 ≤ knots.length) (hlo : knots.getD (s+1) 0 ≤ u) :
    Nf knots u 0 s = 0 := by
  by_contra hne
  have h2 := Nf_supp_right hs u s 0 (by omega) hne
  rw [show 0 + s + 1 = s + 1 from by omega] at h2
  have hu : u = knots.getD (s+1) 0 := le_antisymm h2 hlo
  have h3 := Nf_at_right_end hs u s 0 (by omega) hne
    (by rw [show 0 + s + 1 = s + 1 from by omega]; exact hu)
  omega

/-- Strictly left of `knots[len - s - 2]`, the degree-`s` basis function of
index `len - s - 2` vanishes. -/
theorem Nf_top_vanishes {knots : List ℚ} (hs : List.Sorted (· ≤ ·) knots) (u : ℚ)
    (s : ℕ) (hb : s + 3 ≤ knots.length)
    (hhi : u < knots.getD (knots.length - s - 2) 0) :
    Nf knots u (knots.length - s - 2) s = 0 := by
  by_contra hne
  have h1 := Nf_supp_left hs u s (knots.length - s - 2) (by omega) hne
  exact absurd hhi (not_lt.mpr h1)

/-- Partition of unity for the total model: for a sorted knot vector of
length at least `p + 2`, the `len(knots) - p - 1` degree-`p` basis values
sum to `1` on the half-open domain
`knots[p] ≤ u < knots[len(knots) - 1 - p]`. -/
theorem Nf_partition {knots : List ℚ} (hs : List.Sorted (· ≤ ·) knots) (u : ℚ) :
    ∀ p : ℕ, p + 2 ≤ knots.length → knots.getD p 0 ≤ u →
      u < knots.getD (knots.length - 1 - p) 0 →
      (Finset.range (knots.length - p - 1)).sum (fun i => Nf knots u i p) = 1 := by
  intro p
  induction p with
  | zero =>
    intro hb hlo hhi
    have hP0 : knots.getD 0 0 ≤ u := hlo
    set i0 := Nat.findGreatest (fun i => knots.getD i 0 ≤ u) (knots.length - 2) with hi0
    have hPi0 : knots.getD i0 0 ≤ u :=
      Nat.findGreatest_spec (P := fun i => knots.getD i 0 ≤ u) (Nat.zero_le _) hP0
    have hi0le : i0 ≤ knots.length - 2 := Nat.findGreatest_le _
    have hgr : ∀ j, i0 < j → j ≤ knots.length - 2 → ¬ knots.getD j 0 ≤ u :=
      fun j h1 h2 =>
        Nat.findGreatest_is_greatest (P := fun i => knots.getD i 0 ≤ u) h1 h2
    rw [Finset.sum_eq_single_of_mem i0 (Finset.mem_range.mpr (by omega))]
    · simp only [Nf]
      by_cases hlast : i0 + 2 = knots.length
      · have hub : u ≤ knots.getD (i0+1) 0 := by
          rw [show i0 + 1 = knots.length - 1 - 0 from by omega]
          exact le_of_lt hhi
        rw [if_pos hlast, if_pos ⟨hPi0, hub⟩]
      · have hub : u < knots.getD (i0+1) 0 := by
          have := hgr (i0+1) (by omega) (by omega)
          exact lt_of_not_le this
        rw [if_neg hlast, if_pos ⟨hPi0, hub⟩]
    · intro j hj hne
      have hjlt : j < knots.length - 0 - 1 := Finset.mem_range.mp hj
      rcases lt_or_gt_of_ne hne with hlt | hgt
      · have hk1 : knots.getD (j+1) 0 ≤ u :=
          le_trans (sorted_getD_mono hs (by omega) (by omega)) hPi0
        simp only [Nf]
        split
        · next h => omega
        · rw [if_neg (fun hcon => (not_lt.mpr hk1) hcon.2)]
      · have hnP : ¬ knots.getD j 0 ≤ u := hgr j hgt (by omega)
        simp only [Nf]
        split
        · rw [if_neg (fun hcon => hnP hcon.1)]
        · rw [if_neg (fun hcon => hnP hcon.1)]
  | succ s ih =>
    intro hb hlo hhi
    rw [show knots.length - 1 - (s+1) = knots.length - s - 2 from by omega] at hhi
    have hfirst : Nf knots u 0 s = 0 := Nf_first_vanishes hs u s (by omega) hlo
    have htop : Nf knots u (knots.length - s - 2) s = 0 :=
      Nf_top_vanishes hs u s (by omega) hhi
    have hIH : (Finset.range (knots.length - s - 1)).sum (fun i => Nf knots u i s) = 1 := by
      apply ih (by omega)
      · exact le_trans (sorted_getD_mono hs (by omega) (by omega)) hlo
      · exact lt_of_lt_of_le hhi (sorted_getD_mono hs (by omega) (by omega))
    set t := knots.length - s - 3 with ht
    rw [show knots.length - (s+1) - 1 = t + 1 from by omega]
    simp only [Nf]
    rw [Finset.sum_add_distrib, Finset.sum_range_succ' _ t, Finset.sum_range_succ _ t]
    have hA0 : (if knots.getD (0+s+1) 0 - knots.getD 0 0 ≠ 0 then
        (u - knots.getD 0 0) / (knots.getD (0+s+1) 0 - knots.getD 0 0) * Nf knots u 0 s
      else 0) = 0 := by
      split <;> simp [hfirst]
    have hBt : (if knots.getD (t+s+2) 0 - knots.getD (t+1) 0 ≠ 0 then
        (knots.getD (t+s+2) 0 - u) / (knots.getD (t+s+2) 0 - knots.getD (t+1) 0) *
          Nf knots u (t+1) s
      else 0) = 0 := by
      have e : t + 1 = knots.length - s - 2 := by omega
      rw [e, htop]
      split <;> simp
    rw [hA0, hBt, add_zero, add_zero, ← Finset.sum_add_distrib]
    have hmid : ∀ i ∈ Finset.range t,
        ((if knots.getD (i+1+s+1) 0 - knots.getD (i+1) 0 ≠ 0 then
            (u - knots.getD (i+1) 0) / (knots.getD (i+1+s+1) 0 - knots.getD (i+1) 0) *
              Nf knots u (i+1) s
          else 0)
        + (if knots.getD (i+s+2) 0 - knots.getD (i+1) 0 ≠ 0 then
            (knots.getD (i+s+2) 0 - u) / (knots.getD (i+s+2) 0 - knots.getD (i+1) 0) *
              Nf knots u (i+1) s
          else 0))
          = Nf knots u (i+1) s := by
      intro i hi
      have hit : i < t := Finset.mem_range.mp hi
      rw [show i+1+s+1 = i+s+2 from by omega]
      by_cases hC : knots.getD (i+s+2) 0 - knots.getD (i+1) 0 = 0
      · rw [if_neg (not_not_intro hC), if_neg (not_not_intro hC), add_zero]
        have hNf0 : Nf knots u (i+1) s = 0 := by
          by_contra hne
          have hA := Nf_supp_left hs u s (i+1) (by omega) hne
          have hB := Nf_supp_right hs u s (i+1) (by omega) hne
          rw [show i+1+s+1 = i+s+2 from by omega] at hB
          have heq := sub_eq_zero.mp hC
          rw [heq] at hB
          have hu2 : u = knots.getD (i+1+s+1) 0 := by
            rw [show i+1+s+1 = i+s+2 from by omega, heq]
            exact le_antisymm hB hA
          have hcontra := Nf_at_right_end hs u s (i+1) (by omega) hne hu2
          omega
        rw [hNf0]
      · rw [if_pos hC, if_pos hC, div_mul_eq_mul_div, div_mul_eq_mul_div,
          div_add_div_same, ← add_mul]
        rw [show u - knots.getD (i+1) 0 + (knots.getD (i+s+2) 0 - u)
            = knots.getD (i+s+2) 0 - knots.getD (i+1) 0 from by ring]
        exact mul_div_cancel_left₀ _ hC
    rw [Finset.sum_congr rfl hmid]
    rw [show knots.length - s - 1 = t + 2 from by omega] at hIH
    rw [Finset.sum_range_succ _ (t+1), Finset.sum_range_succ' _ t] at hIH
    rw [hfirst, show t + 1 = knots.length - s - 2 from by omega, htop,
      add_zero, add_zero] at hIH
    exact hIH

/-! Behaviour at the maximum knot. -/

/-- At the maximum knot, every degree-0 basis function other than the
last-interval one vanishes. -/
theorem Nf_deg0_at_max_ne {knots : List ℚ} (hs : List.Sorted (· ≤ ·) knots)
    (i : ℕ) (hb : i + 2 ≤ knots.length) (hne : i + 2 ≠ knots.length) :
    Nf knots (knots.getD (knots.length - 1) 0) i 0 = 0 := by
  have hup : knots.getD (i+1) 0 ≤ knots.getD (knots.length - 1) 0 :=
    sorted_getD_mono hs (by omega) (by omega)
  simp only [Nf]
  rw [if_neg hne, if_neg (fun hcon => (not_lt.mpr hup) hcon.2)]

/-- At the maximum knot, the last-interval degree-0 basis function is `1`. -/
theorem Nf_deg0_at_max_last {knots : List ℚ} (hs : List.Sorted (· ≤ ·) knots)
    (hb : 2 ≤ knots.length) :
    Nf knots (knots.getD (knots.length - 1) 0) (knots.length - 2) 0 = 1 := by
  simp only [Nf]
  rw [if_pos (by omega : knots.length - 2 + 2 = knots.length)]
  rw [if_pos]
  constructor
  · exact sorted_getD_mono hs (by omega) (by omega)
  · rw [show knots.length - 2 + 1 = knots.length - 1 from by omega]

/-- At the maximum knot, every basis function of degree at least 1
vanishes: the endpoint special case of the degree-0 base case does not
propagate, because the recursion branch that would reach it is multiplied
by `knots[i+p+1] - u = 0` or skipped when its denominator is zero. -/
theorem Nf_deg_pos_at_max {knots : List ℚ} (hs : List.Sorted (· ≤ ·) knots) :
    ∀ q : ℕ, 1 ≤ q → ∀ i : ℕ, i + q + 2 ≤ knots.length →
      Nf knots (knots.getD (knots.length - 1) 0) i q = 0 := by
  intro q
  induction q with
  | zero => intro h1; omega
  | succ q ih =>
    intro _ i hb
    have hN1 : Nf knots (knots.getD (knots.length - 1) 0) i q = 0 := by
      rcases Nat.eq_zero_or_pos q with h0 | hq
      · subst h0
        exact Nf_deg0_at_max_ne hs i (by omega) (by omega)
      · exact ih hq i (by omega)
    have hT1 : (if knots.getD (i+q+1) 0 - knots.getD i 0 ≠ 0 then
        (knots.getD (knots.length - 1) 0 - knots.getD i 0) /
          (knots.getD (i+q+1) 0 - knots.getD i 0) *
          Nf knots (knots.getD (knots.length - 1) 0) i q
      else 0) = 0 := by
      split
      · rw [hN1, mul_zero]
      · rfl
    have hT2 : (if knots.getD (i+q+2) 0 - knots.getD (i+1) 0 ≠ 0 then
        (knots.getD (i+q+2) 0 - knots.getD (knots.length - 1) 0) /
          (knots.getD (i+q+2) 0 - knots.getD (i+1) 0) *
          Nf knots (knots.getD (knots.length - 1) 0) (i+1) q
      else 0) = 0 := by
      by_cases hend : i + q + 2 = knots.length - 1
      · have hnum : knots.getD (i+q+2) 0 - knots.getD (knots.length - 1) 0 = 0 := by
          rw [hend]; exact sub_self _
        split
        · rw [hnum, zero_div, zero_mul]
        · rfl
      · have hN2 : Nf knots (knots.getD (knots.length - 1) 0) (i+1) q = 0 := by
          rcases Nat.eq_zero_or_pos q with h0 | hq
          · subst h0
            exact Nf_deg0_at_max_ne hs (i+1) (by omega) (by omega)
          · exact ih hq (i+1) (by omega)
        split
        · rw [hN2, mul_zero]
        · rfl
    simp only [Nf]
    rw [hT1, hT2, add_zero]

/-! The curve evaluator as numerator and denominator sums. -/

theorem list_range_map_sum (g : ℕ → ℚ) : ∀ n : ℕ,
    ((List.range n).map g).sum = (Finset.range n).sum g := by
  intro n
  induction n with
  | zero => rfl
  | succ n ihn =>
    rw [List.range_succ, List.map_append, List.sum_append, ihn, Finset.sum_range_succ]
    simp

theorem range_foldl_add (f : ℕ → ℚ) : ∀ n : ℕ,
    (List.range n).foldl (fun a i => a + f i) 0 = (Finset.range n).sum f := by
  intro n
  induction n with
  | zero => rfl
  | succ n ihn =>
    rw [List.range_succ, List.foldl_append, ihn, Finset.sum_range_succ]
    rfl

/-- The element-wise accumulation `numerator += basis_val * weight * point`
computes, coordinate by coordinate, the sum of its increments. -/
theorem foldl_zipWith_spec (v : ℕ → List ℚ) (dim : ℕ) :
    ∀ (l : List ℕ) (init : List ℚ), init.length = dim →
      (∀ i ∈ l, (v i).length = dim) →
      ((l.foldl (fun acc i => List.zipWith (fun a b => a + b) acc (v i)) init).length = dim
      ∧ ∀ j, j < dim →
          (l.foldl (fun acc i => List.zipWith (fun a b => a + b) acc (v i)) init).getD j 0
            = init.getD j 0 + (l.map (fun i => (v i).getD j 0)).sum) := by
  intro l
  induction l with
  | nil => intro init hlen _; exact ⟨hlen, fun j hj => by simp⟩
  | cons a as ihl =>
    intro init hlen hv
    have hva : (v a).length = dim := hv a (by simp)
    have hlen' : (List.zipWith (fun a b => a + b) init (v a)).length = dim := by
      rw [List.length_zipWith, hlen, hva, min_self]
    obtain ⟨h1, h2⟩ := ihl _ hlen' (fun i hi => hv i (by simp [hi]))
    refine ⟨h1, fun j hj => ?_⟩
    rw [List.foldl_cons, h2 j hj]
    have hj1 : j < init.length := by omega
    have hj2 : j < (v a).length := by omega
    have hj3 : j < (List.zipWith (fun a b => a + b) init (v a)).length := by omega
    rw [List.getD_eq_getElem _ _ hj3, List.getD_eq_getElem _ _ hj1,
      List.map_cons, List.sum_cons, List.getD_eq_getElem _ _ hj2,
      List.getElem_zipWith]
    ring

/-- Unfolding of `evaluateScalar` on a curve with a non-empty,
rectangular control-point array and matching weight count: the evaluation
fails with `SingularEvaluation` when `Σ basis_vals[i] * weights[i] = 0`;
otherwise the result point has the dimension of the control points and its
`j`-th coordinate is
`(Σ basis_vals[i] * weights[i] * control_points[i][j]) / (Σ basis_vals[i] * weights[i])`,
both sums ranging over all control-point indices. -/
theorem evaluateScalar_spec (c : NURBSCurve) (u : ℚ) (bv : List ℚ)
    (hbv : basis_functions_all c.degree u c.knots = some bv)
    (hne : c.control_points ≠ [])
    (hw : c.weights.length = c.control_points.length)
    (hrect : ∀ pt ∈ c.control_points, pt.length = (c.control_points.headD []).length) :
    ((∑ i in Finset.range c.control_points.length,
        bv.getD i 0 * c.weights.getD i 0) = 0 →
      c.evaluateScalar u = Except.error NURBSError.SingularEvaluation)
    ∧ ((∑ i in Finset.range c.control_points.length,
        bv.getD i 0 * c.weights.getD i 0) ≠ 0 →
      ∃ pt, c.evaluateScalar u = Except.ok pt
        ∧ pt.length = (c.control_points.headD []).length
        ∧ ∀ j, j < (c.control_points.headD []).length →
            pt.getD j 0 = (∑ i in Finset.range c.control_points.length,
              bv.getD i 0 * c.weights.getD i 0 * ((c.control_points.getD i []).getD j 0))
              / (∑ i in Finset.range c.control_points.length,
                  bv.getD i 0 * c.weights.getD i 0)) := by
  obtain ⟨pt0, rest, hcp⟩ := List.exists_cons_of_ne_nil hne
  have hwn : c.weights.length = (pt0 :: rest).length := by rw [← hcp]; exact hw
  have hrect' : ∀ pt ∈ (pt0 :: rest), pt.length = pt0.length := by
    intro pt hpt
    have := hrect pt (by rw [hcp]; exact hpt)
    rwa [hcp, List.headD_cons] at this
  have hplen : ∀ i, i < (pt0 :: rest).length →
      ((pt0 :: rest).getD i []).length = pt0.length := by
    intro i hi
    rw [List.getD_eq_getElem _ _ hi]
    exact hrect' _ (List.getElem_mem hi)
  simp only [NURBSCurve.evaluateScalar, hbv, hcp, List.headD_cons, hwn, min_self]
  have hdeneq : (List.range (pt0 :: rest).length).foldl
      (fun acc i => acc + bv.getD i 0 * c.weights.getD i 0) 0
      = ∑ i in Finset.range (pt0 :: rest).length, bv.getD i 0 * c.weights.getD i 0 :=
    range_foldl_add _ _
  obtain ⟨hnumlen, hnumget⟩ :=
    foldl_zipWith_spec
      (fun i => ((pt0 :: rest).getD i []).map
        (fun x => bv.getD i 0 * c.weights.getD i 0 * x))
      pt0.length (List.range (pt0 :: rest).length) (List.replicate pt0.length 0)
      (by simp)
      (by
        intro i hi
        rw [List.length_map]
        exact hplen i (List.mem_range.mp hi))
  constructor
  · intro hzero
    rw [if_pos (by rw [hdeneq]; exact hzero)]
  · intro hnz
    rw [if_neg (by rw [hdeneq]; exact hnz)]
    refine ⟨_, rfl, ?_, ?_⟩
    · rw [List.length_map]; exact hnumlen
    · intro j hj
      have hjnum : j < ((List.range (pt0 :: rest).length).foldl
          (fun acc i => List.zipWith (fun a b => a + b) acc
            (((pt0 :: rest).getD i []).map
              (fun x => bv.getD i 0 * c.weights.getD i 0 * x)))
          (List.replicate pt0.length 0)).length := by rw [hnumlen]; exact hj
      rw [List.getD_eq_getElem _ _ (by rw [List.length_map]; exact hjnum),
        List.getElem_map, hdeneq]
      have hval := hnumget j hj
      rw [List.getD_eq_getElem _ _ hjnum] at hval
      rw [hval]
      have hrepl : (List.replicate pt0.length (0:ℚ)).getD j 0 = 0 := by
        rw [List.getD_eq_getElem _ _ (by simpa using hj)]
        simp
      rw [hrepl, zero_add, list_range_map_sum]
      congr 1
      apply Finset.sum_congr rfl
      intro i hi
      have hip : i < (pt0 :: rest).length := Finset.mem_range.mp hi
      have hjp : j < ((pt0 :: rest).getD i []).length := by rw [hplen i hip]; exact hj
      rw [List.getD_eq_getElem _ _ (by rw [List.length_map]; exact hjp),
        List.getElem_map, List.getD_eq_getElem _ _ hjp]

/-- Batched evaluation returns one point per parameter, in order, each
equal to the scalar evaluation at that parameter. -/
theorem evaluateBatch_spec (c : NURBSCurve) : ∀ (us : List ℚ) (pts : List (List ℚ)),
    c.evaluateBatch us = Except.ok pts →
    pts.length = us.length ∧
      ∀ j, (hj : j < us.length) →
        c.evaluateScalar (us.get ⟨j, hj⟩) = Except.ok (pts.getD j []) := by
  intro us
  induction us with
  | nil =>
    intro pts h
    simp only [NURBSCurve.evaluateBatch, Except.ok.injEq] at h
    subst h
    exact ⟨rfl, fun j hj => absurd hj (by simp)⟩
  | cons u us ihu =>
    intro pts h
    simp only [NURBSCurve.evaluateBatch] at h
    cases hsc : c.evaluateScalar u with
    | error e => rw [hsc] at h; exact absurd h (by simp)
    | ok pt =>
      rw [hsc] at h
      cases hb : c.evaluateBatch us with
      | error e => rw [hb] at h; exact absurd h (by simp)
      | ok rest =>
        rw [hb] at h
        simp only [Except.ok.injEq] at h
        subst h
        obtain ⟨hlen, hget⟩ := ihu rest hb
        refine ⟨by simp [hlen], fun j hj => ?_⟩
        cases j with
        | zero => exact hsc
        | succ j => exact hget j (by simpa using hj)

/-- Reading knots only happens at indices `i .. i+p+1`: two knot vectors
of the same length agreeing there give the same basis value. -/
theorem Nf_frame (u : ℚ) : ∀ (p i : ℕ) (knots knots' : List ℚ),
    knots'.length = knots.length →
    (∀ j, i ≤ j → j ≤ i + p + 1 → knots'.getD j 0 = knots.getD j 0) →
    Nf knots' u i p = Nf knots u i p := by
  intro p
  induction p with
  | zero =>
    intro i knots knots' hlen hag
    simp only [Nf, hlen, hag i le_rfl (by omega), hag (i+1) (by omega) (by omega)]
  | succ q ih =>
    intro i knots knots' hlen hag
    have e1 := hag i le_rfl (by omega)
    have e2 := hag (i+1) (by omega) (by omega)
    have e3 := hag (i+q+1) (by omega) (by omega)
    have e4 := hag (i+q+2) (by omega) (by omega)
    have r1 := ih i knots knots' hlen (fun j h1 h2 => hag j h1 (by omega))
    have r2 := ih (i+1) knots knots' hlen (fun j h1 h2 => hag j (by omega) (by omega))
    simp only [Nf, e1, e2, e3, e4, r1, r2]

/-! Claim theorems. -/

/-- C1: for `p > 0` and `0 ≤ i ≤ len(knots)-p-2`,
`basis_function(i, p, u, knots)` equals
`term1 * N_{i,p-1}(u) + term2 * N_{i+1,p-1}(u)` with
`term1 = (u - knots[i]) / (knots[i+p] - knots[i])` and
`term2 = (knots[i+p+1] - u) / (knots[i+p+1] - knots[i+1])`, where a term
whose denominator is exactly zero is omitted (contributes zero, and that
branch of the recursion is not evaluated); both recursive calls succeed on
this index range. -/
theorem C1_basis_recursion (i p : ℕ) (u : ℚ) (knots : List ℚ)
    (hp : 0 < p) (hi : i + p + 2 ≤ knots.length) :
    basis_function i (p-1) u knots = some (Nf knots u i (p-1))
    ∧ basis_function (i+1) (p-1) u knots = some (Nf knots u (i+1) (p-1))
    ∧ basis_function i p u knots = some
        ((if knots.getD (i+p) 0 - knots.getD i 0 ≠ 0 then
            (u - knots.getD i 0) / (knots.getD (i+p) 0 - knots.getD i 0)
              * Nf knots u i (p-1)
          else 0)
        + (if knots.getD (i+p+1) 0 - knots.getD (i+1) 0 ≠ 0 then
            (knots.getD (i+p+1) 0 - u) / (knots.getD (i+p+1) 0 - knots.getD (i+1) 0)
              * Nf knots u (i+1) (p-1)
          else 0)) := by
  cases p with
  | zero => omega
  | succ q =>
    refine ⟨basis_function_eq_Nf q i u knots (by omega),
      basis_function_eq_Nf q (i+1) u knots (by omega), ?_⟩
    rw [basis_function_eq_Nf (q+1) i u knots hi]
    rfl

/-- C1 witness: the recursion formula at `i = 0`, `p = 1`, `u = 1/2`,
`knots = [0,0,1,1]`. -/
theorem C1_witness :
    basis_function 0 0 (1/2) ([0,0,1,1] : List ℚ) = some (Nf [0,0,1,1] (1/2) 0 0)
    ∧ basis_function 1 0 (1/2) ([0,0,1,1] : List ℚ) = some (Nf [0,0,1,1] (1/2) 1 0)
    ∧ basis_function 0 1 (1/2) ([0,0,1,1] : List ℚ) = some
        ((if ([0,0,1,1] : List ℚ).getD 1 0 - ([0,0,1,1] : List ℚ).getD 0 0 ≠ 0 then
            ((1:ℚ)/2 - ([0,0,1,1] : List ℚ).getD 0 0)
              / (([0,0,1,1] : List ℚ).getD 1 0 - ([0,0,1,1] : List ℚ).getD 0 0)
              * Nf [0,0,1,1] (1/2) 0 0
          else 0)
        + (if ([0,0,1,1] : List ℚ).getD 2 0 - ([0,0,1,1] : List ℚ).getD 1 0 ≠ 0 then
            (([0,0,1,1] : List ℚ).getD 2 0 - (1:ℚ)/2)
              / (([0,0,1,1] : List ℚ).getD 2 0 - ([0,0,1,1] : List ℚ).getD 1 0)
              * Nf [0,0,1,1] (1/2) 1 0
          else 0)) :=
  C1_basis_recursion 0 1 (1/2) [0,0,1,1] (by norm_num) (by norm_num)

/-- C2: at degree 0, `basis_function(i, 0, u, knots)` is the indicator of
`knots[i] ≤ u < knots[i+1]`, except on the last interval index
`i = len(knots) - 2`, where the upper bound is inclusive. -/
theorem C2_basis_degree0 (i : ℕ) (u : ℚ) (knots : List ℚ)
    (hi : i + 2 ≤ knots.length) :
    basis_function i 0 u knots = some
      (if i + 2 = knots.length then
        (if knots.getD i 0 ≤ u ∧ u ≤ knots.getD (i+1) 0 then 1 else 0)
      else
        (if knots.getD i 0 ≤ u ∧ u < knots.getD (i+1) 0 then 1 else 0)) := by
  rw [basis_function_eq_Nf 0 i u knots hi]
  rfl

/-- C2 witness: the last interval of `[0,0,1,1]` contains `u = 1`
inclusively. -/
theorem C2_witness :
    basis_function 2 0 1 ([0,0,1,1] : List ℚ) = some
      (if 2 + 2 = ([0,0,1,1] : List ℚ).length then
        (if ([0,0,1,1] : List ℚ).getD 2 0 ≤ 1 ∧ (1:ℚ) ≤ ([0,0,1,1] : List ℚ).getD 3 0
          then 1 else 0)
      else
        (if ([0,0,1,1] : List ℚ).getD 2 0 ≤ 1 ∧ (1:ℚ) < ([0,0,1,1] : List ℚ).getD 3 0
          then 1 else 0)) :=
  C2_basis_degree0 2 1 [0,0,1,1] (by norm_num)

/-- C9: on the index range `0 ≤ i ≤ len(knots)-p-2` the evaluation is
total (never an `IndexError`), the result depends only on the knots at
indices `i .. i+p+1`, and `basis_functions_all` only makes such calls, so
it is total for every degree and parameter. -/
theorem C9_safety (i p : ℕ) (u : ℚ) (knots : List ℚ)
    (hi : i + p + 2 ≤ knots.length) :
    (∃ v, basis_function i p u knots = some v)
    ∧ (∀ knots' : List ℚ, knots'.length = knots.length →
        (∀ j, i ≤ j → j ≤ i + p + 1 → knots'.getD j 0 = knots.getD j 0) →
        basis_function i p u knots' = basis_function i p u knots)
    ∧ (∀ (q : ℕ) (w : ℚ), ∃ l, basis_functions_all q w knots = some l) := by
  refine ⟨⟨_, basis_function_eq_Nf p i u knots hi⟩, ?_, ?_⟩
  · intro knots' hlen hag
    rw [basis_function_eq_Nf p i u knots hi,
      basis_function_eq_Nf p i u knots' (by omega),
      Nf_frame u p i knots knots' hlen hag]
  · intro q w
    exact ⟨_, basis_functions_all_eq q w knots⟩

/-- C9 witness: totality at `i = 0`, `p = 1`, `u = 7`,
`knots = [0,0,1,1]`. -/
theorem C9_witness : ∃ v, basis_function 0 1 7 ([0,0,1,1] : List ℚ) = some v :=
  (C9_safety 0 1 7 [0,0,1,1] (by norm_num)).1

/-- C5: construction fails with `DimensionMismatch` exactly when the
weight count differs from the control-point count; with equal counts it
succeeds and stores the four inputs as provided, with no further
validation. -/
theorem C5_construct (control_points : List (List ℚ)) (weights knots : List ℚ)
    (degree : ℕ) :
    (NURBSCurve.construct control_points weights knots degree
        = Except.error NURBSError.DimensionMismatch
      ↔ control_points.length ≠ weights.length)
    ∧ (control_points.length = weights.length →
        NURBSCurve.construct control_points weights knots degree
          = Except.ok ⟨control_points, weights, knots, degree⟩) := by
  by_cases h : control_points.length = weights.length
  · simp [NURBSCurve.construct, h]
  · simp [NURBSCurve.construct, h]

/-- C5 witness: three points with three weights construct the example
curve; three points with two weights fail with `DimensionMismatch`. -/
theorem C5_witness :
    NURBSCurve.construct [[0,0],[1,1],[2,0]] [1,1,1] [0,0,1,2,2] 1
      = Except.ok exampleCurve
    ∧ NURBSCurve.construct [[0,0],[1,1],[2,0]] [1,1] [0,0,1,2,2] 1
      = Except.error NURBSError.DimensionMismatch :=
  ⟨(C5_construct [[0,0],[1,1],[2,0]] [1,1,1] [0,0,1,2,2] 1).2 (by norm_num),
   (C5_construct [[0,0],[1,1],[2,0]] [1,1] [0,0,1,2,2] 1).1.mpr (by norm_num)⟩

/-- C6 counterexample: for the sorted knot vector `[0,0,1,1]` and degree
`p = 1`, the parameter `u = 1` lies in the claimed closed domain
`[knots[1], knots[2]] = [0, 1]`, yet the basis values sum to `0`, not
`1`. -/
theorem C6_counterexample :
    List.Sorted (· ≤ ·) ([0,0,1,1] : List ℚ)
    ∧ 1 + 2 ≤ ([0,0,1,1] : List ℚ).length
    ∧ ([0,0,1,1] : List ℚ).getD 1 0 ≤ 1
    ∧ (1:ℚ) ≤ ([0,0,1,1] : List ℚ).getD (([0,0,1,1] : List ℚ).length - 1 - 1) 0
    ∧ basis_functions_all 1 1 ([0,0,1,1] : List ℚ) = some [0, 0]
    ∧ (([0,0] : List ℚ)).sum ≠ 1 := by
  refine ⟨by simp [List.sorted_cons], by norm_num,
    by norm_num [List.getD_cons_zero, List.getD_cons_succ],
    by norm_num [List.getD_cons_zero, List.getD_cons_succ],
    by norm_num [basis_functions_all, basisValsLoop, basis_function, List.range_succ],
    by norm_num⟩

/-- C6 (amended): partition of unity holds on the half-open domain
`knots[p] ≤ u < knots[len(knots)-p-1]` — the right endpoint must be
excluded: for a sorted knot vector and a degree `p` it can carry
(`p + 2 ≤ len(knots)`), `basis_functions_all` succeeds and its values sum
to exactly `1` there. -/
theorem C6_partition_amended (knots : List ℚ) (p : ℕ) (u : ℚ)
    (hs : List.Sorted (· ≤ ·) knots) (hb : p + 2 ≤ knots.length)
    (hlo : knots.getD p 0 ≤ u)
    (hhi : u < knots.getD (knots.length - 1 - p) 0) :
    ∃ bv, basis_functions_all p u knots = some bv ∧ bv.sum = 1 := by
  refine ⟨_, basis_functions_all_eq p u knots, ?_⟩
  rw [list_range_map_sum]
  exact Nf_partition hs u p hb hlo hhi

/-- C6 witness: the partition of unity at `p = 1`, `u = 1/2`,
`knots = [0,0,1,2,2]`. -/
theorem C6_witness :
    ∃ bv, basis_functions_all 1 (1/2) ([0,0,1,2,2] : List ℚ) = some bv
      ∧ bv.sum = 1 :=
  C6_partition_amended [0,0,1,2,2] 1 (1/2) (by simp [List.sorted_cons])
    (by norm_num)
    (by norm_num [List.getD_cons_zero, List.getD_cons_succ])
    (by norm_num [List.getD_cons_zero, List.getD_cons_succ])

/-- C7 counterexample: for the sorted knot vector `[0,0,1,1]` and degree
`p = 1`, evaluating the basis vector at the maximum knot value `1`
yields the all-zero vector `[0, 0]`. -/
theorem C7_counterexample :
    List.Sorted (· ≤ ·) ([0,0,1,1] : List ℚ)
    ∧ basis_functions_all 1
        (([0,0,1,1] : List ℚ).getD (([0,0,1,1] : List ℚ).length - 1) 0)
        ([0,0,1,1] : List ℚ) = some [0, 0]
    ∧ ∀ x ∈ ([0, 0] : List ℚ), x = 0 := by
  refine ⟨by simp [List.sorted_cons], ?_, by
    intro x hx
    rcases List.mem_cons.mp hx with h | h
    · exact h
    · simpa using h⟩
  norm_num [basis_functions_all, basisValsLoop, basis_function, List.range_succ,
    List.getD_cons_zero, List.getD_cons_succ]

/-- C7 (amended): at the maximum knot value the basis vector from
`basis_functions_all` is non-all-zero only for degree `p = 0`, where the
last-interval entry is `1`; for every degree `p ≥ 1` the returned vector
is identically zero, because the degree-0 endpoint special case does not
propagate through the recursion. -/
theorem C7_endpoint_amended (knots : List ℚ)
    (hs : List.Sorted (· ≤ ·) knots) (hb : 2 ≤ knots.length) :
    (∃ bv, basis_functions_all 0 (knots.getD (knots.length - 1) 0) knots = some bv
      ∧ knots.length - 2 < bv.length
      ∧ bv.getD (knots.length - 2) 0 = 1)
    ∧ (∀ p : ℕ, 1 ≤ p →
        ∃ bv, basis_functions_all p (knots.getD (knots.length - 1) 0) knots = some bv
          ∧ ∀ x ∈ bv, x = 0) := by
  constructor
  · refine ⟨_, basis_functions_all_eq _ _ _, ?_, ?_⟩
    · rw [List.length_map, List.length_range]
      omega
    · have hlt : knots.length - 2 < ((List.range (knots.length - 0 - 1)).map
          (fun i => Nf knots (knots.getD (knots.length - 1) 0) i 0)).length := by
        rw [List.length_map, List.length_range]
        omega
      rw [List.getD_eq_getElem _ _ hlt, List.getElem_map, List.getElem_range]
      exact Nf_deg0_at_max_last hs hb
  · intro p hp
    refine ⟨_, basis_functions_all_eq _ _ _, ?_⟩
    intro x hx
    rw [List.mem_map] at hx
    obtain ⟨i, hi, rfl⟩ := hx
    have hi' := List.mem_range.mp hi
    exact Nf_deg_pos_at_max hs p hp i (by omega)

/-- C7 witness: for `knots = [0,1]` at the maximum knot, the degree-0
basis vector has its last-interval entry equal to `1`. -/
theorem C7_witness :
    ∃ bv, basis_functions_all 0
        (([0,1] : List ℚ).getD (([0,1] : List ℚ).length - 1) 0) ([0,1] : List ℚ)
        = some bv
      ∧ ([0,1] : List ℚ).length - 2 < bv.length
      ∧ bv.getD (([0,1] : List ℚ).length - 2) 0 = 1 :=
  (C7_endpoint_amended [0,1] (by simp [List.sorted_cons]) (by norm_num)).1

/-- C3 counterexample: the spec's degree-1 example curve does evaluate to
`[0,0]` at `u = 0` and `[1,1]` at `u = 1`, but at `u = 2` (the maximum
knot) every basis value is zero, so evaluation raises
`SingularEvaluation` instead of returning `[2,0]`. -/
theorem C3_counterexample :
    NURBSCurve.construct [[0,0],[1,1],[2,0]] [1,1,1] [0,0,1,2,2] 1
      = Except.ok exampleCurve
    ∧ exampleCurve.evaluateScalar 2 = Except.error NURBSError.SingularEvaluation
    ∧ exampleCurve.evaluateScalar 2 ≠ Except.ok [2, 0] := by
  have h2 : exampleCurve.evaluateScalar 2 = Except.error NURBSError.SingularEvaluation := by
    norm_num [NURBSCurve.evaluateScalar, exampleCurve, basis_functions_all, basisValsLoop,
      basis_function, List.range_succ, List.getD_cons_zero, List.getD_cons_succ,
      List.replicate, List.foldl_cons, List.foldl_nil]
  exact ⟨rfl, h2, by rw [h2]; exact fun hcon => Except.noConfusion hcon⟩

/-- C3 (amended): the degree-1 curve with control points
`[[0,0],[1,1],[2,0]]`, weights `[1,1,1]`, knots `[0,0,1,2,2]` evaluates
to `[0,0]` at `u = 0` and `[1,1]` at `u = 1`, but fails with
`SingularEvaluation` at `u = 2`. -/
theorem C3_amended :
    NURBSCurve.construct [[0,0],[1,1],[2,0]] [1,1,1] [0,0,1,2,2] 1
      = Except.ok exampleCurve
    ∧ exampleCurve.evaluateScalar 0 = Except.ok [0, 0]
    ∧ exampleCurve.evaluateScalar 1 = Except.ok [1, 1]
    ∧ exampleCurve.evaluateScalar 2 = Except.error NURBSError.SingularEvaluation := by
  refine ⟨rfl, ?_, ?_, ?_⟩ <;>
    norm_num [NURBSCurve.evaluateScalar, exampleCurve, basis_functions_all, basisValsLoop,
      basis_function, List.range_succ, List.getD_cons_zero, List.getD_cons_succ,
      List.replicate, List.foldl_cons, List.foldl_nil]

/-- C4: for a constructed curve (weight count = control-point count,
non-empty rectangular control points), evaluation fails with
`SingularEvaluation` exactly when the denominator
`Σ basis_vals[i] * weights[i]` is zero (missing basis entries read as 0,
the sum over all control-point indices); in particular it fails for all
weights zero, and otherwise returns the point whose `j`-th coordinate is
`(Σ basis_vals[i] * weights[i] * control_points[i][j]) / denominator` —
a zero denominator is never replaced by a default point. -/
theorem C4_singular_iff (c : NURBSCurve) (u : ℚ) (bv : List ℚ)
    (hbv : basis_functions_all c.degree u c.knots = some bv)
    (hne : c.control_points ≠ [])
    (hw : c.weights.length = c.control_points.length)
    (hrect : ∀ pt ∈ c.control_points, pt.length = (c.control_points.headD []).length) :
    (c.evaluateScalar u = Except.error NURBSError.SingularEvaluation
      ↔ (∑ i in Finset.range c.control_points.length,
          bv.getD i 0 * c.weights.getD i 0) = 0)
    ∧ ((∀ w ∈ c.weights, w = 0) →
        c.evaluateScalar u = Except.error NURBSError.SingularEvaluation)
    ∧ ((∑ i in Finset.range c.control_points.length,
          bv.getD i 0 * c.weights.getD i 0) ≠ 0 →
        ∃ pt, c.evaluateScalar u = Except.ok pt
          ∧ pt.length = (c.control_points.headD []).length
          ∧ ∀ j, j < (c.control_points.headD []).length →
              pt.getD j 0 = (∑ i in Finset.range c.control_points.length,
                bv.getD i 0 * c.weights.getD i 0 * ((c.control_points.getD i []).getD j 0))
                / (∑ i in Finset.range c.control_points.length,
                    bv.getD i 0 * c.weights.getD i 0)) := by
  obtain ⟨h1, h2⟩ := evaluateScalar_spec c u bv hbv hne hw hrect
  have hiff : c.evaluateScalar u = Except.error NURBSError.SingularEvaluation
      ↔ (∑ i in Finset.range c.control_points.length,
          bv.getD i 0 * c.weights.getD i 0) = 0 := by
    constructor
    · intro heval
      by_contra hnz
      obtain ⟨pt, hpt, _⟩ := h2 hnz
      rw [hpt] at heval
      exact Except.noConfusion heval
    · exact h1
  refine ⟨hiff, ?_, h2⟩
  intro hwz
  apply h1
  apply Finset.sum_eq_zero
  intro i _
  have hwi : c.weights.getD i 0 = 0 := by
    by_cases hlt : i < c.weights.length
    · exact hwz _ (by rw [List.getD_eq_getElem _ _ hlt]; exact List.getElem_mem hlt)
    · exact List.getD_eq_default _ _ (by omega)
  rw [hwi, mul_zero]

/-- C4 witness: on the example curve at `u = 1/2` the basis vector is
`[1/2, 1/2, 0]` and the singularity criterion is exactly the vanishing of
the weighted basis sum. -/
theorem C4_witness :
    exampleCurve.evaluateScalar (1/2) = Except.error NURBSError.SingularEvaluation
      ↔ (∑ i in Finset.range exampleCurve.control_points.length,
          ([1/2, 1/2, 0] : List ℚ).getD i 0 * exampleCurve.weights.getD i 0) = 0 :=
  (C4_singular_iff exampleCurve (1/2) [1/2, 1/2, 0]
    (by norm_num [exampleCurve, basis_functions_all, basisValsLoop, basis_function,
      List.range_succ, List.getD_cons_zero, List.getD_cons_succ])
    (by exact fun h => List.noConfusion h)
    (by norm_num [exampleCurve])
    (by simp [exampleCurve])).1

/-- C8: the batched evaluation (and its wrapper `evaluate_grid`) returns
exactly one point per input parameter, in input order, the `j`-th point
being the scalar evaluation at the `j`-th parameter. -/
theorem C8_batch (c : NURBSCurve) (us : List ℚ) (pts : List (List ℚ)) :
    c.evaluate_grid us = c.evaluateBatch us
    ∧ (c.evaluateBatch us = Except.ok pts →
        pts.length = us.length
        ∧ ∀ j, (hj : j < us.length) →
            c.evaluateScalar (us.get ⟨j, hj⟩) = Except.ok (pts.getD j [])) :=
  ⟨rfl, evaluateBatch_spec c us pts⟩

/-- C8 witness: the example curve batched over `[0, 1]`. -/
theorem C8_witness :
    exampleCurve.evaluateBatch [0, 1] = Except.ok [[0,0],[1,1]]
    ∧ ([[0,0],[1,1]] : List (List ℚ)).length = ([0, 1] : List ℚ).length
    ∧ exampleCurve.evaluateScalar 1 = Except.ok [1, 1] := by
  have hb : exampleCurve.evaluateBatch [0, 1] = Except.ok [[0,0],[1,1]] := by
    norm_num [NURBSCurve.evaluateBatch, NURBSCurve.evaluateScalar, exampleCurve,
      basis_functions_all, basisValsLoop, basis_function, List.range_succ,
      List.getD_cons_zero, List.getD_cons_succ, List.replicate, List.foldl_cons,
      List.foldl_nil]
  obtain ⟨hlen, hget⟩ := (C8_batch exampleCurve [0, 1] [[0,0],[1,1]]).2 hb
  exact ⟨hb, hlen, hget 1 (by norm_num)⟩

/-- C10: when `len(knots) > len(control_points) + degree + 1`, the basis
vector is strictly longer than the control-point list; evaluation ignores
the trailing basis values (no error is raised for them: the outcome is
`SingularEvaluation` or a point, decided by sums over control-point
indices `0 .. len(control_points) - 1` only). -/
theorem C10_extra_basis (c : NURBSCurve) (u : ℚ)
    (hlong : c.control_points.length + c.degree + 1 < c.knots.length)
    (hne : c.control_points ≠ [])
    (hw : c.weights.length = c.control_points.length)
    (hrect : ∀ pt ∈ c.control_points, pt.length = (c.control_points.headD []).length) :
    ∃ bv, basis_functions_all c.degree u c.knots = some bv
      ∧ c.control_points.length < bv.length
      ∧ c.evaluateScalar u ≠ Except.error NURBSError.IndexError
      ∧ (c.evaluateScalar u = Except.error NURBSError.SingularEvaluation
          ↔ (∑ i in Finset.range c.control_points.length,
              bv.getD i 0 * c.weights.getD i 0) = 0)
      ∧ ((∑ i in Finset.range c.control_points.length,
            bv.getD i 0 * c.weights.getD i 0) ≠ 0 →
          ∃ pt, c.evaluateScalar u = Except.ok pt
            ∧ ∀ j, j < (c.control_points.headD []).length →
                pt.getD j 0 = (∑ i in Finset.range c.control_points.length,
                  bv.getD i 0 * c.weights.getD i 0 * ((c.control_points.getD i []).getD j 0))
                  / (∑ i in Finset.range c.control_points.length,
                      bv.getD i 0 * c.weights.getD i 0)) := by
  have hbv : basis_functions_all c.degree u c.knots
      = some ((List.range (c.knots.length - c.degree - 1)).map
          (fun i => Nf c.knots u i c.degree)) :=
    basis_functions_all_eq c.degree u c.knots
  obtain ⟨h1, h2⟩ := evaluateScalar_spec c u _ hbv hne hw hrect
  refine ⟨_, hbv, ?_, ?_, ?_⟩
  · rw [List.length_map, List.length_range]
    omega
  · by_cases hz : (∑ i in Finset.range c.control_points.length,
        ((List.range (c.knots.length - c.degree - 1)).map
          (fun i => Nf c.knots u i c.degree)).getD i 0 * c.weights.getD i 0) = 0
    · rw [h1 hz]
      simp
    · obtain ⟨pt, hpt, _⟩ := h2 hz
      rw [hpt]
      simp
  · constructor
    · constructor
      · intro heval
        by_contra hnz
        obtain ⟨pt, hpt, _⟩ := h2 hnz
        rw [hpt] at heval
        exact Except.noConfusion heval
      · exact h1
    · intro hnz
      obtain ⟨pt, hpt, hlen, hget⟩ := h2 hnz
      exact ⟨pt, hpt, hget⟩

/-- C10 witness: a degree-1 curve with 2 control points but 6 knots has 4
basis functions; the trailing two are ignored and no error is raised. -/
theorem C10_witness :
    ∃ bv, basis_functions_all longCurve.degree (1/2) longCurve.knots = some bv
      ∧ longCurve.control_points.length < bv.length
      ∧ longCurve.evaluateScalar (1/2) ≠ Except.error NURBSError.IndexError
      ∧ (longCurve.evaluateScalar (1/2) = Except.error NURBSError.SingularEvaluation
          ↔ (∑ i in Finset.range longCurve.control_points.length,
              bv.getD i 0 * longCurve.weights.getD i 0) = 0)
      ∧ ((∑ i in Finset.range longCurve.control_points.length,
            bv.getD i 0 * longCurve.weights.getD i 0) ≠ 0 →
          ∃ pt, longCurve.evaluateScalar (1/2) = Except.ok pt
            ∧ ∀ j, j < (longCurve.control_points.headD []).length →
                pt.getD j 0 = (∑ i in Finset.range longCurve.control_points.length,
                  bv.getD i 0 * longCurve.weights.getD i 0
                    * ((longCurve.control_points.getD i []).getD j 0))
                  / (∑ i in Finset.range longCurve.control_points.length,
                      bv.getD i 0 * longCurve.weights.getD i 0)) :=
  C10_extra_basis longCurve (1/2) (by norm_num [longCurve])
    (by exact fun h => List.noConfusion h)
    (by norm_num [longCurve]) (by simp [longCurve])

end Viviani4D
